import Mathlib

/-!
Shallow embedding of the nano-rs repository core: the nanopow-rs proof-of-work
engine, the nano-lib-rs block and message models, and the node peer table.
Bytes are modelled as `Nat` values below 256, byte strings as `List Nat`.
The BLAKE2b primitive is an external crate; functions that call it take the
digest function as an explicit argument.
-/

set_option autoImplicit false

namespace NanoRs

/-- Little-endian byte encoding: `leBytes k n` is the `k`-byte little-endian
serialization of `n` (as `byteorder::LittleEndian` writes it). -/
def leBytes : Nat → Nat → List Nat
  | 0, _ => []
  | k + 1, n => n % 256 :: leBytes k (n / 256)

/-- Little-endian byte decoding, as `byteorder::LittleEndian` reads it. -/
def leRead : List Nat → Nat
  | [] => 0
  | b :: rest => b + 256 * leRead rest

/-- Big-endian byte encoding of width `k`. -/
def beBytes (k n : Nat) : List Nat :=
  (leBytes k n).reverse

/-- Big-endian byte decoding. -/
def beRead (l : List Nat) : Nat :=
  leRead l.reverse

/-- `src/nanopow-rs/src/lib.rs`: the network threshold bytes, the hex decoding
of the string `ffffffc000000000`. -/
def THRESHOLD : List Nat := [0xff, 0xff, 0xff, 0xc0, 0x00, 0x00, 0x00, 0x00]

/-- `src/nanopow-rs/src/lib.rs`: `check_result_threshold` folds over the
digest bytes in reverse order, requiring every byte to be at least the
corresponding `THRESHOLD` byte. -/
def check_result_threshold (hash : List Nat) : Bool :=
  (List.zip hash.reverse THRESHOLD).foldl
    (fun acc p => acc && decide (p.2 ≤ p.1)) true

/-- `src/nanopow-rs/src/lib.rs`: `hash_work_internal` feeds the work bytes
then the root bytes to a fresh 8-byte BLAKE2b hasher; the BLAKE2b primitive
itself is the external `blake2` crate, passed in as `blake`. -/
def hash_work_internal (blake : List Nat → List Nat) (work hash : List Nat) :
    List Nat :=
  blake (work ++ hash)

/-- `src/nanopow-rs/src/lib.rs`: `check_work` writes the work value as 8
little-endian bytes, hashes them against the root and applies the threshold
predicate. -/
def check_work (blake : List Nat → List Nat) (hash : List Nat) (work : Nat) :
    Bool :=
  check_result_threshold (hash_work_internal blake (leBytes 8 work) hash)

/-- One worker of `generate_work_internal`: the candidate stream pairs each
sampled 8-byte nonce with the `done` flag the worker reads from the cancel
channel right after testing it. `none` means the worker returned without
sending (cancelled); `some msg` is the message it put on the result channel. -/
def worker_loop (blake : List Nat → List Nat) (hash : List Nat) :
    List (List Nat × Bool) → Option (Option (List Nat))
  | [] => some none
  | (c, d) :: rest =>
    let valid := check_result_threshold (hash_work_internal blake c hash)
    if d then none
    else if valid then some (some c)
    else worker_loop blake hash rest

/-- The coordinator of `generate_work_internal` keeps receiving until it sees
a `Some` result or the messages run out. -/
def firstSome : List (Option (List Nat)) → Option (List Nat)
  | [] => none
  | some w :: _ => some w
  | none :: rest => firstSome rest

/-- `src/nanopow-rs/src/lib.rs`: `generate_work_internal`, with the scheduler
abstracted: `runs` lists, per worker, the candidate/cancel-flag steps of its
loop; the messages the workers send arrive at the coordinator in that order. -/
def generate_work_internal (blake : List Nat → List Nat) (hash : List Nat)
    (runs : List (List (List Nat × Bool))) : Option (List Nat) :=
  firstSome (runs.filterMap (worker_loop blake hash))

/-- `src/nanopow-rs/src/lib.rs`: `generate_work` converts a found 8-byte
nonce to a `u64` by a little-endian read. -/
def generate_work (blake : List Nat → List Nat) (hash : List Nat)
    (runs : List (List (List Nat × Bool))) : Option Nat :=
  match generate_work_internal blake hash runs with
  | some w => some (leRead w)
  | none => none

/-- Well-formed worker runs: every sampled candidate is 8 bytes, each below
256 (as `rng.gen::<[u8; 8]>()` produces). -/
def RunsWF (runs : List (List (List Nat × Bool))) : Prop :=
  ∀ run ∈ runs, ∀ step ∈ run,
    (step.1 : List Nat).length = 8 ∧ ∀ b ∈ (step.1 : List Nat), b < 256

instance : DecidablePred RunsWF := fun runs => by
  unfold RunsWF; infer_instance

/-- `src/nano-lib-rs/src/block.rs`: the `BlockKind` byte enum. -/
inductive BlockKind where
  | invalid
  | notABlock
  | send
  | receive
  | open
  | change
  | state
  deriving DecidableEq, Repr

/-- The `enum_byte!` discriminant of a `BlockKind`. -/
def BlockKind.toValue : BlockKind → Nat
  | .invalid => 0x00
  | .notABlock => 0x01
  | .send => 0x02
  | .receive => 0x03
  | .open => 0x04
  | .change => 0x05
  | .state => 0x06

/-- The `enum_byte!` generated `BlockKind::from_value`. -/
def BlockKind.from_value : Nat → Option BlockKind
  | 0x00 => some .invalid
  | 0x01 => some .notABlock
  | 0x02 => some .send
  | 0x03 => some .receive
  | 0x04 => some .open
  | 0x05 => some .change
  | 0x06 => some .state
  | _ => none

/-- `src/nano-lib-rs/src/block.rs`: `BlockKind::payload_size`. -/
def BlockKind.payload_size : BlockKind → Nat
  | .send => 80
  | .receive => 64
  | .open => 96
  | .change => 32
  | .state => 144
  | _ => 0

/-- `src/nano-lib-rs/src/block.rs`: `BlockPayload`, with 32-byte hashes and
keys, the 32-byte link and the `u128` balance; field order as declared. -/
inductive BlockPayload where
  | send (previous : List Nat) (destination : List Nat) (balance : Nat)
  | receive (previous : List Nat) (source : List Nat)
  | open (source : List Nat) (representative : List Nat) (account : List Nat)
  | change (previous : List Nat) (representative : List Nat)
  | state (account : List Nat) (previous : List Nat)
      (representative : List Nat) (balance : Nat) (link : List Nat)
  deriving DecidableEq, Repr

/-- `src/nano-lib-rs/src/block.rs`: `BlockPayload::root`. -/
def BlockPayload.root : BlockPayload → List Nat
  | .send previous _ _ => previous
  | .receive previous _ => previous
  | .open _ _ account => account
  | .change previous _ => previous
  | .state _ previous _ _ _ => previous

/-- `src/nano-lib-rs/src/block.rs`: `BlockPayload::kind`. -/
def BlockPayload.kind : BlockPayload → BlockKind
  | .send _ _ _ => .send
  | .receive _ _ => .receive
  | .open _ _ _ => .open
  | .change _ _ => .change
  | .state _ _ _ _ _ => .state

/-- `src/nano-lib-rs/src/block.rs`: `BlockPayload::serialize_bytes` writes
each field in declared order, the balance as 16 big-endian bytes. -/
def BlockPayload.serialize_bytes : BlockPayload → List Nat
  | .send previous destination balance =>
    previous ++ destination ++ beBytes 16 balance
  | .receive previous source => previous ++ source
  | .open source representative account =>
    source ++ representative ++ account
  | .change previous representative => previous ++ representative
  | .state account previous representative balance link =>
    account ++ previous ++ representative ++ beBytes 16 balance ++ link

/-- A `Buf::copy_to_slice` of `n` bytes: `none` models the panic on an
underfull buffer. -/
def readBytes (n : Nat) (buf : List Nat) : Option (List Nat × List Nat) :=
  if buf.length < n then none else some (buf.take n, buf.drop n)

/-- `src/nano-lib-rs/src/block.rs`: `BlockPayload::deserialize_bytes`,
returning the parsed payload and the unconsumed rest of the buffer. -/
def BlockPayload.deserialize_bytes (buf : List Nat) :
    BlockKind → Option (BlockPayload × List Nat)
  | .send =>
    if buf.length < BlockKind.send.payload_size then none
    else do
      let (previous, buf) ← readBytes 32 buf
      let (destination, buf) ← readBytes 32 buf
      let (balanceBytes, buf) ← readBytes 16 buf
      some (BlockPayload.send previous destination (beRead balanceBytes), buf)
  | .receive =>
    if buf.length < BlockKind.receive.payload_size then none
    else do
      let (previous, buf) ← readBytes 32 buf
      let (source, buf) ← readBytes 32 buf
      some (BlockPayload.receive previous source, buf)
  | .open =>
    if buf.length < BlockKind.open.payload_size then none
    else do
      let (source, buf) ← readBytes 32 buf
      let (representative, buf) ← readBytes 32 buf
      let (account, buf) ← readBytes 32 buf
      some (BlockPayload.open source representative account, buf)
  | .change =>
    if buf.length < BlockKind.change.payload_size then none
    else do
      let (previous, buf) ← readBytes 32 buf
      let (representative, buf) ← readBytes 32 buf
      some (BlockPayload.change previous representative, buf)
  | .state =>
    if buf.length < BlockKind.state.payload_size then none
    else do
      let (account, buf) ← readBytes 32 buf
      let (previous, buf) ← readBytes 32 buf
      let (representative, buf) ← readBytes 32 buf
      let (balanceBytes, buf) ← readBytes 16 buf
      let (link, buf) ← readBytes 32 buf
      some (BlockPayload.state account previous representative
        (beRead balanceBytes) link, buf)
  | _ => none

/-- `src/nano-lib-rs/src/block.rs`: `Block`, with the signature as an opaque
64-byte value and the work as a `u64`. -/
structure Block where
  payload : BlockPayload
  work : Option Nat
  signature : Option (List Nat)
  next : Option (List Nat)
  hash : Option (List Nat)
  deriving DecidableEq, Repr

/-- `src/nano-lib-rs/src/block.rs`: `Block::new`. -/
def Block.new (payload : BlockPayload) (signature : Option (List Nat))
    (work : Option Nat) : Block :=
  { payload := payload, work := work, signature := signature,
    next := none, hash := none }

/-- `src/nano-lib-rs/src/block.rs`: `Block::serialize_bytes` writes the
payload, then the signature if present, then the work if present — the work
big-endian for `State` payloads and little-endian otherwise. -/
def Block.serialize_bytes (b : Block) : List Nat :=
  b.payload.serialize_bytes
    ++ (match b.signature with
        | some s => s
        | none => [])
    ++ (match b.work with
        | some w =>
          match b.payload with
          | .state _ _ _ _ _ => beBytes 8 w
          | _ => leBytes 8 w
        | none => [])

/-- `src/nano-lib-rs/src/block.rs`: `Block::deserialize_bytes` checks the
length against payload size plus signature plus work, parses the payload,
the 64-byte signature, and the work — big-endian for `State`, little-endian
otherwise. `none` covers both the error returns and buffer panics. -/
def Block.deserialize_bytes (bytes : List Nat) (kind : BlockKind) :
    Option Block :=
  match kind with
  | .invalid => none
  | .notABlock => none
  | _ =>
    if bytes.length < kind.payload_size + 64 then none
    else if bytes.length < kind.payload_size + 64 + 8 then none
    else do
      let (payload, buf) ← BlockPayload.deserialize_bytes bytes kind
      let (sig, buf) ← readBytes 64 buf
      let (workBytes, _) ← readBytes 8 buf
      let work := if kind = .state then beRead workBytes else leRead workBytes
      some (Block.new payload (some sig) (some work))

/-- `src/nano-lib-rs/src/block.rs`: `Block::set_work` as written: it bails
with `InvalidWorkError` when `check_work` returns true and stores the work
otherwise. -/
def Block.set_work (blake : List Nat → List Nat) (b : Block) (work : Nat) :
    Except Unit Block :=
  let valid := check_work blake b.payload.root work
  if valid then Except.error ()
  else Except.ok { b with work := some work }

/-- `Hasher::write`: the hasher state records the byte stream fed so far. -/
def hWrite (st bytes : List Nat) : List Nat :=
  st ++ bytes

/-- `src/nano-lib-rs/src/block.rs`: `impl Hash for BlockPayload`, recording
the exact byte sequence each variant feeds to the hasher state. For `State`
the code writes 31 zero bytes, then the `BlockKind::State` tag byte, then
the fields; the legacy variants write only their fields. -/
def BlockPayload.hashFeed (p : BlockPayload) (st : List Nat) : List Nat :=
  match p with
  | .send previous destination balance =>
    hWrite (hWrite (hWrite st previous) destination) (beBytes 16 balance)
  | .receive previous source =>
    hWrite (hWrite st previous) source
  | .open source representative account =>
    hWrite (hWrite (hWrite st source) representative) account
  | .change previous representative =>
    hWrite (hWrite st previous) representative
  | .state account previous representative balance link =>
    hWrite (hWrite (hWrite (hWrite (hWrite (hWrite
      (hWrite st (List.replicate 31 0)) [BlockKind.state.toValue])
      account) previous) representative) (beBytes 16 balance)) link

/-- `src/nano-lib-rs/src/hash.rs`: the default `Hasher::write_u128` fills a
64-byte zero buffer, writes the 16 little-endian bytes of `i` into its front,
and feeds the whole buffer to the hasher. -/
def writeU128Feed (i : Nat) : List Nat :=
  leBytes 16 i ++ List.replicate 48 0

/-- `src/nano-lib-rs/src/message.rs`: the `NetworkKind` byte enum. -/
inductive NetworkKind where
  | test
  | beta
  | main
  deriving DecidableEq, Repr

/-- The `enum_byte!` discriminant of a `NetworkKind`. -/
def NetworkKind.toValue : NetworkKind → Nat
  | .test => 0x41
  | .beta => 0x42
  | .main => 0x43

/-- The `enum_byte!` generated `NetworkKind::from_value`. -/
def NetworkKind.from_value : Nat → Option NetworkKind
  | 0x41 => some .test
  | 0x42 => some .beta
  | 0x43 => some .main
  | _ => none

/-- `src/nano-lib-rs/src/message.rs`: the `Version` byte enum. -/
inductive Version where
  | one
  | two
  | three
  | four
  | five
  | six
  deriving DecidableEq, Repr

/-- The `enum_byte!` discriminant of a `Version`. -/
def Version.toValue : Version → Nat
  | .one => 0x01
  | .two => 0x02
  | .three => 0x03
  | .four => 0x04
  | .five => 0x05
  | .six => 0x06

/-- The `enum_byte!` generated `Version::from_value`. -/
def Version.from_value : Nat → Option Version
  | 0x01 => some .one
  | 0x02 => some .two
  | 0x03 => some .three
  | 0x04 => some .four
  | 0x05 => some .five
  | 0x06 => some .six
  | _ => none

/-- `src/nano-lib-rs/src/message.rs`: the `MessageKind` byte enum. -/
inductive MessageKind where
  | invalid
  | notAMessage
  | keepAlive
  | publish
  | confirmReq
  | confirmAck
  | bulkPull
  | bulkPush
  | frontierReq
  deriving DecidableEq, Repr

/-- The `enum_byte!` discriminant of a `MessageKind`. -/
def MessageKind.toValue : MessageKind → Nat
  | .invalid => 0x00
  | .notAMessage => 0x01
  | .keepAlive => 0x02
  | .publish => 0x03
  | .confirmReq => 0x04
  | .confirmAck => 0x05
  | .bulkPull => 0x06
  | .bulkPush => 0x07
  | .frontierReq => 0x08

/-- The `enum_byte!` generated `MessageKind::from_value`. -/
def MessageKind.from_value : Nat → Option MessageKind
  | 0x00 => some .invalid
  | 0x01 => some .notAMessage
  | 0x02 => some .keepAlive
  | 0x03 => some .publish
  | 0x04 => some .confirmReq
  | 0x05 => some .confirmAck
  | 0x06 => some .bulkPull
  | 0x07 => some .bulkPush
  | 0x08 => some .frontierReq
  | _ => none

/-- A `SocketAddrV6` as the codec and peer table use it: the 16 address
octets and the port. -/
structure Peer where
  ip : List Nat
  port : Nat
  deriving DecidableEq, Repr

/-- The all-zero sentinel address, `[::]:0`. -/
def zeroPeer : Peer :=
  { ip := List.replicate 16 0, port := 0 }

/-- `src/nano-lib-rs/src/message.rs`: `MessageHeader`; `magic_number` and the
`extensions` bitfield are raw bytes, the rest `enum_byte!` values. -/
structure MessageHeader where
  magic_number : Nat
  network : NetworkKind
  version_max : Version
  version_using : Version
  version_min : Version
  kind : MessageKind
  block_kind : BlockKind
  extensions : Nat
  deriving DecidableEq, Repr

/-- The bincode serialization of a `MessageHeader`: its eight bytes in field
order. -/
def MessageHeader.serialize (h : MessageHeader) : List Nat :=
  [h.magic_number, h.network.toValue, h.version_max.toValue,
   h.version_using.toValue, h.version_min.toValue, h.kind.toValue,
   h.block_kind.toValue, h.extensions]

/-- The bincode deserialization of a `MessageHeader` from the front of a
byte stream: each `enum_byte!` field rejects an unknown discriminant. -/
def MessageHeader.deserialize (bytes : List Nat) : Option MessageHeader :=
  match bytes with
  | b0 :: b1 :: b2 :: b3 :: b4 :: b5 :: b6 :: b7 :: _ => do
    let network ← NetworkKind.from_value b1
    let version_max ← Version.from_value b2
    let version_using ← Version.from_value b3
    let version_min ← Version.from_value b4
    let kind ← MessageKind.from_value b5
    let block_kind ← BlockKind.from_value b6
    some { magic_number := b0, network := network, version_max := version_max,
           version_using := version_using, version_min := version_min,
           kind := kind, block_kind := block_kind, extensions := b7 }
  | _ => none

/-- `src/nano-lib-rs/src/message.rs`: `MessageInner`. -/
inductive MessageInner where
  | invalid
  | keepAlive (peers : List Peer)
  | publish (block : Block)
  | confirmReq (block : Block)
  | confirmAck (public_key : List Nat) (signature : List Nat)
      (sequence : Nat) (block : Block)
  deriving DecidableEq, Repr

/-- One KeepAlive wire entry: 16 address octets then the port as two
little-endian bytes. -/
def Peer.serialize (p : Peer) : List Nat :=
  p.ip ++ leBytes 2 p.port

/-- `src/nano-lib-rs/src/message.rs`: `MessageInner::serialize_bytes`. The
KeepAlive arm pads the cloned peer list with `[::]:0` up to 8 entries and
writes exactly the first 8. -/
def MessageInner.serialize_bytes : MessageInner → List Nat
  | .invalid => []
  | .keepAlive peers =>
    let padded := peers ++ List.replicate (8 - min peers.length 8) zeroPeer
    (padded.take 8).flatMap Peer.serialize
  | .publish block => block.serialize_bytes
  | .confirmReq block => block.serialize_bytes
  | .confirmAck public_key signature sequence block =>
    public_key ++ signature ++ leBytes 8 sequence ++ block.serialize_bytes

/-- `bytes.chunks(18)`: split a byte list into consecutive chunks of 18,
the last possibly shorter. -/
def chunks18 (l : List Nat) : List (List Nat) :=
  match l with
  | [] => []
  | b :: rest => (b :: rest).take 18 :: chunks18 ((b :: rest).drop 18)
  termination_by l.length
  decreasing_by simp; omega

/-- `src/nano-lib-rs/src/message.rs`: `MessageInner::deserialize_bytes`. Only
full 18-byte chunks parse to peers; an empty peer list gives `Invalid`, and
every kind other than KeepAlive gives `Invalid`. -/
def MessageInner.deserialize_bytes (kind : MessageKind) (bytes : List Nat) :
    MessageInner :=
  match kind with
  | .keepAlive =>
    let peers := (chunks18 bytes).filterMap fun chunk =>
      if chunk.length = 18 then
        some { ip := chunk.take 16, port := leRead (chunk.drop 16) }
      else none
    if 0 < peers.length then .keepAlive peers else .invalid
  | _ => .invalid

/-- `src/nano-lib-rs/src/message.rs`: `Message`. -/
structure Message where
  header : MessageHeader
  inner : MessageInner
  deriving DecidableEq, Repr

/-- `src/nano-lib-rs/src/message.rs`: `Message::serialize_bytes`: the bincode
header bytes followed by the payload bytes. -/
def Message.serialize_bytes (m : Message) : List Nat :=
  m.header.serialize ++ m.inner.serialize_bytes

/-- `src/nano-lib-rs/src/message.rs`: `Message::deserialize_bytes`: fewer
than 8 bytes or a bad header byte is an error; the rest of the buffer is
decoded according to the header kind. -/
def Message.deserialize_bytes (bytes : List Nat) : Option Message :=
  if bytes.length < 8 then none
  else
    match MessageHeader.deserialize (bytes.take 8) with
    | none => none
    | some header =>
      some { header := header,
             inner := MessageInner.deserialize_bytes header.kind
               (bytes.drop 8) }

/-- `src/src/node/state.rs`: `PeerInfo`, with `Instant` as a `Nat` tick. -/
structure PeerInfo where
  last_seen : Nat
  deriving DecidableEq, Repr

/-- An `IndexMap<SocketAddrV6, PeerInfo>` as an insertion-ordered
association list with unique keys. -/
abbrev Peers := List (Peer × PeerInfo)

/-- `IndexMap::get`: the value at the first matching key. -/
def lookupKey (k : Peer) : Peers → Option PeerInfo
  | [] => none
  | kv :: rest => if kv.1 = k then some kv.2 else lookupKey k rest

/-- `IndexMap::insert`: replace the value in place if the key exists,
otherwise append the pair at the end. -/
def mapInsert (m : Peers) (k : Peer) (v : PeerInfo) : Peers :=
  if (lookupKey k m).isSome then
    m.map (fun kv => if kv.1 = k then (k, v) else kv)
  else m ++ [(k, v)]

/-- Removal of the entry with the given key. `IndexMap`'s `remove` is a
swap-remove, which permutes the order; only the key/value content is
modelled here, which the peer-map claims depend on. -/
def removeKey (k : Peer) : Peers → Peers
  | [] => []
  | kv :: rest => if kv.1 = k then rest else kv :: removeKey k rest

/-- The keys of a peer map are pairwise distinct, as `IndexMap` guarantees
structurally. -/
def nodupKeys (m : Peers) : Prop :=
  (m.map Prod.fst).Nodup

/-- `src/src/node/state.rs`: the node `State` with the active and inactive
peer maps. -/
structure NodeState where
  peers : Peers
  inactive_peers : Peers
  deriving DecidableEq, Repr

/-- No address is a key of both the active and the inactive map. -/
def DisjointMaps (st : NodeState) : Prop :=
  ∀ a : Peer, (lookupKey a st.peers).isSome →
    (lookupKey a st.inactive_peers).isSome → False

/-- `src/src/node/state.rs`: `State::add_or_update_peer`. `check_addr` is an
external filter from `src/src/utils.rs`, passed in; `now` is the current
`Instant`. Returns the new state and the "newly inserted" flag. -/
def add_or_update_peer (check_addr : Peer → Bool) (now : Nat)
    (st : NodeState) (peer : Peer) (force : Bool) : NodeState × Bool :=
  if !force && (lookupKey peer st.inactive_peers).isSome then (st, false)
  else
    let moved :=
      match lookupKey peer st.inactive_peers with
      | some info =>
        { peers := mapInsert st.peers peer info,
          inactive_peers := removeKey peer st.inactive_peers }
      | none => st
    match lookupKey peer moved.peers with
    | some _ =>
      ({ moved with
         peers := mapInsert moved.peers peer { last_seen := now } }, false)
    | none =>
      if check_addr peer then
        ({ moved with
           peers := moved.peers ++ [(peer, { last_seen := now })] }, true)
      else (moved, false)

/-- `src/src/node/state.rs`: `State::prune_peers`: every active entry older
than the cutoff is inserted into the inactive map, then removed from the
active map; the count moved is returned. -/
def prune_peers (now cutoff : Nat) (st : NodeState) : NodeState × Nat :=
  let to_prune := st.peers.filter (fun kv => cutoff < now - kv.2.last_seen)
  let inactive := to_prune.foldl (fun m kv => mapInsert m kv.1 kv.2)
    st.inactive_peers
  let active := to_prune.foldl (fun m kv => removeKey kv.1 m) st.peers
  ({ peers := active, inactive_peers := inactive }, to_prune.length)

/-- `src/src/node/state.rs`: `State::remove_peer`. -/
def remove_peer (st : NodeState) (peer : Peer) : NodeState :=
  { st with peers := removeKey peer st.peers }

/-- `src/src/node/state.rs`: `State::random_peers` draws `n` indices with
`rng.gen_range(0, peers.len())`; `rng i` is the raw draw for step `i`, and
the empty range panics, modelled as `none`. -/
def random_peers (rng : Nat → Nat) (st : NodeState) (n : Nat) :
    Option (List Peer) :=
  (List.range n).mapM fun i =>
    if st.peers.length = 0 then none
    else (st.peers.get? (rng i % st.peers.length)).map Prod.fst

/-- A digest function that declares every input valid: it returns the fixed
8-byte digest whose little-endian value is `0xFFFFFFC000000000`, the exact
threshold. -/
def blakeAccept : List Nat → List Nat :=
  fun _ => [0x00, 0x00, 0x00, 0x00, 0xc0, 0xff, 0xff, 0xff]

/-- A digest function that declares every input invalid: it returns the
all-zero 8-byte digest. -/
def blakeReject : List Nat → List Nat :=
  fun _ => List.replicate 8 0

/-- A block with a legacy `Change` payload of all-zero fields, no signature
and no work. -/
def changeBlock0 : Block :=
  Block.new
    (BlockPayload.change (List.replicate 32 0) (List.replicate 32 0))
    none none

/-- Well-formed payload fields: hashes, keys and links are 32 bytes and the
balance fits in a `u128`. -/
def PayloadWF : BlockPayload → Prop
  | .send previous destination balance =>
    previous.length = 32 ∧ destination.length = 32 ∧ balance < 256 ^ 16
  | .receive previous source =>
    previous.length = 32 ∧ source.length = 32
  | .open source representative account =>
    source.length = 32 ∧ representative.length = 32 ∧ account.length = 32
  | .change previous representative =>
    previous.length = 32 ∧ representative.length = 32
  | .state account previous representative balance link =>
    account.length = 32 ∧ previous.length = 32 ∧
      representative.length = 32 ∧ balance < 256 ^ 16 ∧ link.length = 32

instance : DecidablePred PayloadWF := fun p => by
  cases p <;> (simp only [PayloadWF]; infer_instance)

/-- A concrete all-zero `State` payload. -/
def statePayload0 : BlockPayload :=
  BlockPayload.state (List.replicate 32 0) (List.replicate 32 0)
    (List.replicate 32 0) 0 (List.replicate 32 0)

/-- Well-formed peer entries: 16 address octets below 256 is not needed for
the codec, only the ip length and a port fitting in a `u16`. -/
def PeersWF (L : List Peer) : Prop :=
  ∀ p ∈ L, p.ip.length = 16 ∧ p.port < 256 ^ 2

instance : DecidablePred PeersWF := fun L => by
  unfold PeersWF; infer_instance

/-- A well-formed KeepAlive header: the values of the repository's own
round-trip test (`magic = 0x52`, Main network, versions 5/5/1). -/
def kaHeader : MessageHeader :=
  { magic_number := 0x52, network := .main, version_max := .five,
    version_using := .five, version_min := .one, kind := .keepAlive,
    block_kind := .invalid, extensions := 0 }

/-- The peer `[::]:7075` of the repository round-trip test. -/
def peer7075 : Peer :=
  { ip := List.replicate 16 0, port := 7075 }

/-- A Publish message carrying the all-zero Change block. -/
def pubMsg0 : Message :=
  { header := { kaHeader with kind := .publish, block_kind := .change },
    inner := .publish changeBlock0 }

theorem length_leBytes (k n : Nat) : (leBytes k n).length = k := by
  induction k generalizing n with
  | zero => rfl
  | succ k ih => simp [leBytes, ih]

theorem mem_leBytes_lt (k n : Nat) : ∀ b ∈ leBytes k n, b < 256 := by
  induction k generalizing n with
  | zero => simp [leBytes]
  | succ k ih =>
    intro b hb
    simp only [leBytes, List.mem_cons] at hb
    rcases hb with h | h
    · subst h; exact Nat.mod_lt _ (by omega)
    · exact ih _ b h

theorem leRead_leBytes (k n : Nat) (h : n < 256 ^ k) :
    leRead (leBytes k n) = n := by
  induction k generalizing n with
  | zero =>
    simp [leBytes, leRead]
    omega
  | succ k ih =>
    have hdiv : n / 256 < 256 ^ k := by
      rw [Nat.div_lt_iff_lt_mul (by omega)]
      calc n < 256 ^ (k + 1) := h
        _ = 256 ^ k * 256 := by rw [Nat.pow_succ]
    simp only [leBytes, leRead, ih (n / 256) hdiv]
    omega

theorem leBytes_leRead (l : List Nat) (h : ∀ b ∈ l, b < 256) :
    leBytes l.length (leRead l) = l := by
  induction l with
  | nil => rfl
  | cons b rest ih =>
    have hb : b < 256 := h b (List.mem_cons_self b rest)
    have hrest : ∀ x ∈ rest, x < 256 := fun x hx => h x (List.mem_cons_of_mem b hx)
    simp only [List.length_cons, leBytes, leRead]
    have h1 : (b + 256 * leRead rest) % 256 = b := by
      rw [Nat.add_mul_mod_self_left]
      exact Nat.mod_eq_of_lt hb
    have h2 : (b + 256 * leRead rest) / 256 = leRead rest := by
      rw [Nat.add_mul_div_left _ _ (by omega : (0:Nat) < 256),
        Nat.div_eq_of_lt hb, Nat.zero_add]
    rw [h1, h2, ih hrest]

theorem length_beBytes (k n : Nat) : (beBytes k n).length = k := by
  simp [beBytes, length_leBytes]

theorem beRead_beBytes (k n : Nat) (h : n < 256 ^ k) :
    beRead (beBytes k n) = n := by
  simp [beRead, beBytes, leRead_leBytes k n h]

theorem beBytes_beRead (l : List Nat) (h : ∀ b ∈ l, b < 256) :
    beBytes l.length (beRead l) = l := by
  have h' : ∀ b ∈ l.reverse, b < 256 := by
    intro b hb
    exact h b (List.mem_reverse.mp hb)
  have := leBytes_leRead l.reverse h'
  rw [List.length_reverse] at this
  simp [beBytes, beRead, this]

theorem take_append_len {l1 l2 : List Nat} {n : Nat} (h : l1.length = n) :
    (l1 ++ l2).take n = l1 := by
  subst h
  simp

theorem drop_append_len {l1 l2 : List Nat} {n : Nat} (h : l1.length = n) :
    (l1 ++ l2).drop n = l2 := by
  subst h
  simp

theorem readBytes_append (l1 l2 : List Nat) (n : Nat) (h : l1.length = n) :
    readBytes n (l1 ++ l2) = some (l1, l2) := by
  simp [readBytes, take_append_len h, drop_append_len h]
  omega

theorem check_result_threshold_eq (b0 b1 b2 b3 b4 b5 b6 b7 : Nat)
    (h0 : b0 < 256) (h1 : b1 < 256) (h2 : b2 < 256) (h3 : b3 < 256)
    (h4 : b4 < 256) (h5 : b5 < 256) (h6 : b6 < 256) (h7 : b7 < 256) :
    check_result_threshold [b0, b1, b2, b3, b4, b5, b6, b7] = true ↔
      0xFFFFFFC000000000 ≤ leRead [b0, b1, b2, b3, b4, b5, b6, b7] := by
  simp only [check_result_threshold, THRESHOLD, leRead, List.reverse_cons,
    List.reverse_nil, List.nil_append, List.cons_append, List.zip_cons_cons,
    List.zip_nil_right, List.foldl_cons, List.foldl_nil, Bool.true_and,
    Bool.and_eq_true, decide_eq_true_eq]
  omega

theorem check_result_threshold_len8 (d : List Nat) (hlen : d.length = 8)
    (hb : ∀ b ∈ d, b < 256) :
    check_result_threshold d = true ↔ 0xFFFFFFC000000000 ≤ leRead d := by
  rcases d with _ | ⟨b0, _ | ⟨b1, _ | ⟨b2, _ | ⟨b3, _ | ⟨b4, _ | ⟨b5, _ |
    ⟨b6, _ | ⟨b7, _ | ⟨b8, d⟩⟩⟩⟩⟩⟩⟩⟩⟩ <;> simp at hlen
  simp only [List.mem_cons, List.not_mem_nil, or_false] at hb
  exact check_result_threshold_eq b0 b1 b2 b3 b4 b5 b6 b7
    (hb b0 (by tauto)) (hb b1 (by tauto)) (hb b2 (by tauto))
    (hb b3 (by tauto)) (hb b4 (by tauto)) (hb b5 (by tauto))
    (hb b6 (by tauto)) (hb b7 (by tauto))

theorem worker_loop_sound (blake : List Nat → List Nat) (hash : List Nat)
    (run : List (List Nat × Bool)) (w : List Nat)
    (h : worker_loop blake hash run = some (some w)) :
    check_result_threshold (hash_work_internal blake w hash) = true ∧
      ∃ step ∈ run, step.1 = w := by
  induction run with
  | nil => simp [worker_loop] at h
  | cons step rest ih =>
    obtain ⟨c, d⟩ := step
    simp only [worker_loop] at h
    by_cases hd : d
    · simp [hd] at h
    · simp only [hd, if_false, Bool.false_eq_true] at h
      by_cases hv : check_result_threshold (hash_work_internal blake c hash)
      · simp only [hv, if_true] at h
        obtain rfl : c = w := by injection h with h'; injection h'
        exact ⟨hv, (c, d), by simp⟩
      · simp only [hv, if_false, Bool.false_eq_true] at h
        obtain ⟨hcheck, step', hstep', heq⟩ := ih h
        exact ⟨hcheck, step', by simp [hstep'], heq⟩

theorem firstSome_mem (l : List (Option (List Nat))) (w : List Nat)
    (h : firstSome l = some w) : some w ∈ l := by
  induction l with
  | nil => simp [firstSome] at h
  | cons o rest ih =>
    match o with
    | some v =>
      simp only [firstSome] at h
      simp [h]
    | none =>
      simp only [firstSome] at h
      exact List.mem_cons_of_mem _ (ih h)

/-- C3: if `generate_work` returns `Some(w)` then `check_work` on the same
root returns true: the nonce published by any worker, converted through the
little-endian u64 round trip, still satisfies the threshold predicate. -/
theorem generate_work_sound (blake : List Nat → List Nat) (hash : List Nat)
    (runs : List (List (List Nat × Bool))) (v : Nat) (hwf : RunsWF runs)
    (h : generate_work blake hash runs = some v) :
    check_work blake hash v = true := by
  unfold generate_work at h
  cases hgen : generate_work_internal blake hash runs with
  | none => rw [hgen] at h; simp at h
  | some w =>
    rw [hgen] at h
    simp only [Option.some.injEq] at h
    subst h
    unfold generate_work_internal at hgen
    have hmem := firstSome_mem _ _ hgen
    obtain ⟨run, hrun, hloop⟩ := List.mem_filterMap.mp hmem
    obtain ⟨hcheck, step, hstep, hstepw⟩ :=
      worker_loop_sound blake hash run w hloop
    obtain ⟨hlen, hbytes⟩ := hwf run hrun step hstep
    rw [hstepw] at hlen hbytes
    unfold check_work
    have hw : leBytes 8 (leRead w) = w := by
      rw [← hlen]
      exact leBytes_leRead w hbytes
    rw [hw]
    exact hcheck

/-- Witness for `generate_work_sound` at a concrete digest function, root
and single worker run. -/
theorem generate_work_sound_witness :
    check_work blakeAccept (List.replicate 32 0) 5 = true :=
  generate_work_sound blakeAccept (List.replicate 32 0)
    [[([5, 0, 0, 0, 0, 0, 0, 0], false)]] 5 (by decide) (by rfl)

/-- C4: `check_work` returns true exactly when the 8-byte digest of the
little-endian work bytes followed by the root, read as a little-endian u64,
is at least `0xFFFFFFC000000000`: the per-byte comparison against the
threshold bytes is equivalent to the numeric comparison. -/
theorem check_work_iff_threshold (blake : List Nat → List Nat)
    (R : List Nat) (w : Nat)
    (hlen : (hash_work_internal blake (leBytes 8 w) R).length = 8)
    (hb : ∀ b ∈ hash_work_internal blake (leBytes 8 w) R, b < 256) :
    check_work blake R w = true ↔
      0xFFFFFFC000000000 ≤ leRead (hash_work_internal blake (leBytes 8 w) R) :=
  check_result_threshold_len8 _ hlen hb

/-- Witness for `check_work_iff_threshold` at a concrete digest function. -/
theorem check_work_iff_threshold_witness :
    check_work blakeReject [] 0 = true ↔
      0xFFFFFFC000000000 ≤
        leRead (hash_work_internal blakeReject (leBytes 8 0) []) :=
  check_work_iff_threshold blakeReject [] 0 (by decide) (by decide)

/-- C1 (code bug): `Block::set_work` has the comparison inverted. At a digest
function for which `check_work` returns true, `set_work` fails with
`InvalidWorkError`; at one for which `check_work` returns false, `set_work`
succeeds and stores the invalid work. -/
theorem set_work_rejects_valid_work :
    check_work blakeAccept changeBlock0.payload.root 0 = true ∧
    Block.set_work blakeAccept changeBlock0 0 = Except.error () ∧
    check_work blakeReject changeBlock0.payload.root 0 = false ∧
    Block.set_work blakeReject changeBlock0 0 =
      Except.ok { changeBlock0 with work := some 0 } := by
  refine ⟨by decide, by rfl, by decide, by rfl⟩

/-- C8 (code bug): the default `Hasher::write_u128` feeds 64 bytes to the
hasher — the 16 little-endian bytes of the value followed by 48 zero
bytes — not the exactly-16-byte serialization the spec requires. -/
theorem write_u128_feeds_64_bytes :
    (writeU128Feed 1).length = 64 ∧ writeU128Feed 1 ≠ leBytes 16 1 := by
  exact ⟨by decide, by decide⟩

/-- C5: the exact byte sequence fed to the 32-byte block hasher. A `State`
payload feeds 31 zero bytes, the tag byte `0x06`, then account, previous,
representative, the 16-byte big-endian balance and link; each legacy shape
feeds only its fields in declared order. -/
theorem hash_preimage_spec (previous destination source representative
    account link : List Nat) (balance : Nat) :
    (BlockPayload.state account previous representative balance
        link).hashFeed [] =
      List.replicate 31 0 ++ [0x06] ++ account ++ previous ++
        representative ++ beBytes 16 balance ++ link ∧
    (BlockPayload.send previous destination balance).hashFeed [] =
      previous ++ destination ++ beBytes 16 balance ∧
    (BlockPayload.receive previous source).hashFeed [] =
      previous ++ source ∧
    (BlockPayload.open source representative account).hashFeed [] =
      source ++ representative ++ account ∧
    (BlockPayload.change previous representative).hashFeed [] =
      previous ++ representative := by
  refine ⟨?_, ?_, ?_, ?_, ?_⟩ <;>
    simp [BlockPayload.hashFeed, hWrite, BlockKind.toValue, List.append_assoc]

theorem payload_deserialize_serialize (p : BlockPayload) (rest : List Nat)
    (h : PayloadWF p) :
    BlockPayload.deserialize_bytes (p.serialize_bytes ++ rest) p.kind =
      some (p, rest) := by
  cases p with
  | send previous destination balance =>
    obtain ⟨h1, h2, h3⟩ := h
    have e1 := readBytes_append _ (destination ++ (beBytes 16 balance ++ rest)) _ h1
    have e2 := readBytes_append _ (beBytes 16 balance ++ rest) _ h2
    have e3 := readBytes_append _ (rest) _ (length_beBytes 16 balance)
    simp [BlockPayload.deserialize_bytes, BlockPayload.serialize_bytes,
      BlockPayload.kind, BlockKind.payload_size, List.append_assoc, e1, e2,
      e3, beRead_beBytes 16 balance h3, h1, h2, length_beBytes]
    all_goals omega
  | receive previous source =>
    obtain ⟨h1, h2⟩ := h
    have e1 := readBytes_append _ (source ++ rest) _ h1
    have e2 := readBytes_append _ (rest) _ h2
    simp [BlockPayload.deserialize_bytes, BlockPayload.serialize_bytes,
      BlockPayload.kind, BlockKind.payload_size, List.append_assoc, e1, e2,
      h1, h2]
    all_goals omega
  | «open» source representative account =>
    obtain ⟨h1, h2, h3⟩ := h
    have e1 := readBytes_append _ (representative ++ (account ++ rest)) _ h1
    have e2 := readBytes_append _ (account ++ rest) _ h2
    have e3 := readBytes_append _ (rest) _ h3
    simp [BlockPayload.deserialize_bytes, BlockPayload.serialize_bytes,
      BlockPayload.kind, BlockKind.payload_size, List.append_assoc, e1, e2,
      e3, h1, h2, h3]
    all_goals omega
  | change previous representative =>
    obtain ⟨h1, h2⟩ := h
    have e1 := readBytes_append _ (representative ++ rest) _ h1
    have e2 := readBytes_append _ (rest) _ h2
    simp [BlockPayload.deserialize_bytes, BlockPayload.serialize_bytes,
      BlockPayload.kind, BlockKind.payload_size, List.append_assoc, e1, e2,
      h1, h2]
  | state account previous representative balance link =>
    obtain ⟨h1, h2, h3, h4, h5⟩ := h
    have e1 := readBytes_append _ (previous ++ (representative ++ (beBytes 16 balance ++ (link ++ rest)))) _ h1
    have e2 := readBytes_append _ (representative ++ (beBytes 16 balance ++ (link ++ rest))) _ h2
    have e3 := readBytes_append _ (beBytes 16 balance ++ (link ++ rest)) _ h3
    have e4 := readBytes_append _ (link ++ rest) _ (length_beBytes 16 balance)
    have e5 := readBytes_append _ (rest) _ h5
    simp [BlockPayload.deserialize_bytes, BlockPayload.serialize_bytes,
      BlockPayload.kind, BlockKind.payload_size, List.append_assoc, e1, e2,
      e3, e4, e5, beRead_beBytes 16 balance h4, h1, h2, h3, h5,
      length_beBytes]
    all_goals omega

theorem readBytes_exact {l : List Nat} {n : Nat} (h : l.length = n) :
    readBytes n l = some (l, []) := by
  subst h
  simp [readBytes]

theorem block_serialize_eq (p : BlockPayload) (s : List Nat) (w : Nat) :
    Block.serialize_bytes (Block.new p (some s) (some w)) =
      p.serialize_bytes ++ s ++
        (if p.kind = BlockKind.state then beBytes 8 w else leBytes 8 w) := by
  cases p <;>
    simp [Block.serialize_bytes, Block.new, BlockPayload.kind]

theorem block_deserialize_serialize (p : BlockPayload) (s : List Nat)
    (w : Nat) (hp : PayloadWF p) (hs : s.length = 64) (hw : w < 256 ^ 8) :
    Block.deserialize_bytes
      (Block.serialize_bytes (Block.new p (some s) (some w))) p.kind =
      some (Block.new p (some s) (some w)) := by
  have hrt := payload_deserialize_serialize p
    (s ++ (if p.kind = BlockKind.state then beBytes 8 w else leBytes 8 w)) hp
  have hread := readBytes_append _ (if p.kind = BlockKind.state then beBytes 8 w else leBytes 8 w) _ hs
  cases p with
  | send previous destination balance =>
    obtain ⟨h1, h2, h3⟩ := hp
    simp only [BlockPayload.kind] at hrt hread ⊢
    simp [BlockPayload.serialize_bytes, List.append_assoc] at hrt hread
    simp [Block.serialize_bytes, Block.new, Block.deserialize_bytes,
      BlockPayload.serialize_bytes, BlockKind.payload_size,
      List.append_assoc, List.length_append, h1, h2, hs, length_beBytes,
      length_leBytes, hrt, hread, readBytes_exact (length_leBytes 8 w),
      leRead_leBytes 8 w hw]
  | receive previous source =>
    obtain ⟨h1, h2⟩ := hp
    simp only [BlockPayload.kind] at hrt hread ⊢
    simp [BlockPayload.serialize_bytes, List.append_assoc] at hrt hread
    simp [Block.serialize_bytes, Block.new, Block.deserialize_bytes,
      BlockPayload.serialize_bytes, BlockKind.payload_size,
      List.append_assoc, List.length_append, h1, h2, hs, length_leBytes,
      hrt, hread, readBytes_exact (length_leBytes 8 w),
      leRead_leBytes 8 w hw]
  | «open» source representative account =>
    obtain ⟨h1, h2, h3⟩ := hp
    simp only [BlockPayload.kind] at hrt hread ⊢
    simp [BlockPayload.serialize_bytes, List.append_assoc] at hrt hread
    simp [Block.serialize_bytes, Block.new, Block.deserialize_bytes,
      BlockPayload.serialize_bytes, BlockKind.payload_size,
      List.append_assoc, List.length_append, h1, h2, h3, hs, length_leBytes,
      hrt, hread, readBytes_exact (length_leBytes 8 w),
      leRead_leBytes 8 w hw]
  | change previous representative =>
    obtain ⟨h1, h2⟩ := hp
    simp only [BlockPayload.kind] at hrt hread ⊢
    simp [BlockPayload.serialize_bytes, List.append_assoc] at hrt hread
    simp [Block.serialize_bytes, Block.new, Block.deserialize_bytes,
      BlockPayload.serialize_bytes, BlockKind.payload_size,
      List.append_assoc, List.length_append, h1, h2, hs, length_leBytes,
      hrt, hread, readBytes_exact (length_leBytes 8 w),
      leRead_leBytes 8 w hw]
  | state account previous representative balance link =>
    obtain ⟨h1, h2, h3, h4, h5⟩ := hp
    simp only [BlockPayload.kind] at hrt hread ⊢
    simp [BlockPayload.serialize_bytes, List.append_assoc] at hrt hread
    simp [Block.serialize_bytes, Block.new, Block.deserialize_bytes,
      BlockPayload.serialize_bytes, BlockKind.payload_size,
      List.append_assoc, List.length_append, h1, h2, h3, h5, hs,
      length_beBytes, hrt, hread, readBytes_exact (length_beBytes 8 w),
      beRead_beBytes 8 w hw]

/-- C6: `Block::serialize_bytes` writes the 8-byte work field big-endian when
the payload is a `State` block and little-endian for the legacy shapes, and
`Block::deserialize_bytes` reads it with the same asymmetry, so a
serialize/deserialize round trip preserves the work value for every shape. -/
theorem work_endianness_roundtrip (p : BlockPayload) (s : List Nat) (w : Nat)
    (hp : PayloadWF p) (hs : s.length = 64) (hw : w < 256 ^ 8) :
    Block.serialize_bytes (Block.new p (some s) (some w)) =
      p.serialize_bytes ++ s ++
        (if p.kind = BlockKind.state then beBytes 8 w else leBytes 8 w) ∧
    Block.deserialize_bytes
      (Block.serialize_bytes (Block.new p (some s) (some w))) p.kind =
      some (Block.new p (some s) (some w)) :=
  ⟨block_serialize_eq p s w, block_deserialize_serialize p s w hp hs hw⟩

/-- Witness for `work_endianness_roundtrip` at a concrete `State` block with
work `3`. -/
theorem work_endianness_roundtrip_witness :
    Block.serialize_bytes (Block.new statePayload0 (some (List.replicate 64 0))
        (some 3)) =
      statePayload0.serialize_bytes ++ List.replicate 64 0 ++
        (if statePayload0.kind = BlockKind.state then beBytes 8 3
         else leBytes 8 3) ∧
    Block.deserialize_bytes
      (Block.serialize_bytes (Block.new statePayload0
        (some (List.replicate 64 0)) (some 3))) statePayload0.kind =
      some (Block.new statePayload0 (some (List.replicate 64 0)) (some 3)) :=
  work_endianness_roundtrip statePayload0 (List.replicate 64 0) 3
    (by decide) (by decide) (by norm_num)

theorem network_from_value_toValue (x : NetworkKind) :
    NetworkKind.from_value x.toValue = some x := by
  cases x <;> rfl

theorem version_from_value_toValue (x : Version) :
    Version.from_value x.toValue = some x := by
  cases x <;> rfl

theorem message_kind_from_value_toValue (x : MessageKind) :
    MessageKind.from_value x.toValue = some x := by
  cases x <;> rfl

theorem block_kind_from_value_toValue (x : BlockKind) :
    BlockKind.from_value x.toValue = some x := by
  cases x <;> rfl

theorem header_deserialize_serialize (h : MessageHeader) (rest : List Nat) :
    MessageHeader.deserialize (h.serialize ++ rest) = some h := by
  simp [MessageHeader.serialize, MessageHeader.deserialize,
    network_from_value_toValue, version_from_value_toValue,
    message_kind_from_value_toValue, block_kind_from_value_toValue]

theorem header_serialize_length (h : MessageHeader) :
    h.serialize.length = 8 := by
  simp [MessageHeader.serialize]

theorem peer_serialize_length (p : Peer) (h : p.ip.length = 16) :
    p.serialize.length = 18 := by
  simp [Peer.serialize, h, length_leBytes]

theorem chunks18_append (l1 l2 : List Nat) (h : l1.length = 18) :
    chunks18 (l1 ++ l2) = l1 :: chunks18 l2 := by
  match l1, h with
  | b :: rest, h =>
    rw [List.cons_append, chunks18]
    rw [← List.cons_append]
    rw [take_append_len h, drop_append_len h]

theorem chunks18_nil : chunks18 [] = [] := by
  rw [chunks18]

/-- Decoding the concatenated 18-byte wire entries of a well-formed peer
list recovers the list. -/
theorem decode_peer_chunks (ps : List Peer) (hps : PeersWF ps) :
    ((chunks18 (ps.flatMap Peer.serialize)).filterMap fun chunk =>
      if chunk.length = 18 then
        some { ip := chunk.take 16, port := leRead (chunk.drop 16) }
      else none) = ps := by
  induction ps with
  | nil => simp [chunks18_nil]
  | cons p rest ih =>
    have hp := hps p (List.mem_cons_self p rest)
    have hrest : PeersWF rest := fun q hq => hps q (List.mem_cons_of_mem p hq)
    have hlen := peer_serialize_length p hp.1
    rw [List.flatMap_cons, chunks18_append _ _ hlen, List.filterMap_cons,
      if_pos hlen]
    rw [ih hrest]
    have hip : (Peer.serialize p).take 16 = p.ip := by
      simp [Peer.serialize, take_append_len hp.1]
    have hport : (Peer.serialize p).drop 16 = leBytes 2 p.port := by
      simp [Peer.serialize, drop_append_len hp.1]
    rw [hip, hport, leRead_leBytes 2 p.port hp.2]

/-- The padded-then-truncated peer list the KeepAlive encoder writes equals
the original list truncated to 8 entries and padded with `[::]:0`. -/
theorem keepalive_padded_take (L : List Peer) :
    (L ++ List.replicate (8 - min L.length 8) zeroPeer).take 8 =
      L.take 8 ++ List.replicate (8 - min L.length 8) zeroPeer := by
  rcases le_or_lt 8 L.length with h | h
  · have h8 : min L.length 8 = 8 := by omega
    simp [h8]
  · have h8 : min L.length 8 = L.length := by omega
    rw [h8]
    have hlen : (L ++ List.replicate (8 - L.length) zeroPeer).length = 8 := by
      simp
      omega
    rw [List.take_of_length_le (by omega), List.take_of_length_le (by omega)]

theorem keepalive_decode (h : MessageHeader) (L : List Peer)
    (hk : h.kind = MessageKind.keepAlive) (hL : PeersWF L) :
    Message.deserialize_bytes
        (Message.serialize_bytes { header := h, inner := .keepAlive L }) =
      some { header := h,
             inner := MessageInner.keepAlive (L.take 8 ++
               List.replicate (8 - min L.length 8) zeroPeer) } := by
  have hpadWF : PeersWF (L.take 8 ++
      List.replicate (8 - min L.length 8) zeroPeer) := by
    intro p hp
    rcases List.mem_append.mp hp with hp | hp
    · exact hL p (List.mem_of_mem_take hp)
    · have : p = zeroPeer := List.eq_of_mem_replicate hp
      subst this
      exact ⟨by simp [zeroPeer], by simp [zeroPeer]⟩
  have hpadLen : (L.take 8 ++
      List.replicate (8 - min L.length 8) zeroPeer).length = 8 := by
    simp [List.length_take]
    omega
  unfold Message.serialize_bytes Message.deserialize_bytes
  have hbody : (MessageInner.keepAlive L).serialize_bytes =
      (L.take 8 ++
        List.replicate (8 - min L.length 8) zeroPeer).flatMap
        Peer.serialize := by
    simp only [MessageInner.serialize_bytes]
    rw [keepalive_padded_take]
  rw [hbody]
  have hlen8 : ¬ ((h.serialize ++ (L.take 8 ++
      List.replicate (8 - min L.length 8) zeroPeer).flatMap
        Peer.serialize).length < 8) := by
    simp [header_serialize_length]
  rw [if_neg hlen8]
  rw [take_append_len (header_serialize_length h)]
  have hser : MessageHeader.deserialize h.serialize = some h := by
    have := header_deserialize_serialize h []
    simpa using this
  rw [hser, drop_append_len (header_serialize_length h)]
  simp only [hk, MessageInner.deserialize_bytes]
  rw [decode_peer_chunks _ hpadWF, hpadLen]
  simp

/-- C7: serializing `KeepAlive(L)` and deserializing the result yields a
KeepAlive whose list has exactly 8 entries: the first `min(|L|, 8)` entries
of `L` followed by copies of `[::]:0`; longer lists are truncated to 8. -/
theorem keepalive_padding (h : MessageHeader) (L : List Peer)
    (hk : h.kind = MessageKind.keepAlive) (hL : PeersWF L) :
    Message.deserialize_bytes
        (Message.serialize_bytes { header := h, inner := .keepAlive L }) =
      some { header := h,
             inner := MessageInner.keepAlive (L.take 8 ++
               List.replicate (8 - min L.length 8) zeroPeer) } ∧
    (L.take 8 ++ List.replicate (8 - min L.length 8) zeroPeer).length = 8 := by
  refine ⟨keepalive_decode h L hk hL, ?_⟩
  simp [List.length_take]
  omega

/-- Witness for `keepalive_padding` at a one-entry peer list. -/
theorem keepalive_padding_witness :
    Message.deserialize_bytes
        (Message.serialize_bytes
          { header := kaHeader, inner := .keepAlive [peer7075] }) =
      some { header := kaHeader,
             inner := MessageInner.keepAlive ([peer7075].take 8 ++
               List.replicate (8 - min [peer7075].length 8) zeroPeer) } ∧
    ([peer7075].take 8 ++
      List.replicate (8 - min [peer7075].length 8) zeroPeer).length = 8 :=
  keepalive_padding kaHeader [peer7075] (by rfl) (by decide)

/-- C2 counterexample: the codec round trip fails on a valid Publish
message — the decoder yields an `Invalid` payload because only KeepAlive
bodies are ever deserialized. -/
theorem publish_roundtrip_fails :
    Message.deserialize_bytes (Message.serialize_bytes pubMsg0) ≠
      some pubMsg0 := by
  decide

/-- C2 amended: the round trip holds for the wire-canonical KeepAlive
messages, those whose peer list has exactly 8 well-formed entries; the
non-KeepAlive payloads decode to `Invalid`. -/
theorem keepalive_roundtrip (h : MessageHeader) (L : List Peer)
    (hk : h.kind = MessageKind.keepAlive) (hlen : L.length = 8)
    (hL : PeersWF L) :
    Message.deserialize_bytes
        (Message.serialize_bytes { header := h, inner := .keepAlive L }) =
      some { header := h, inner := MessageInner.keepAlive L } := by
  have hdec := keepalive_decode h L hk hL
  have htake : L.take 8 = L := List.take_of_length_le (by omega)
  rw [hdec, htake, hlen]
  simp

/-- Witness for `keepalive_roundtrip` at the repository test message: 8
copies of `[::]:7075` under the default header. -/
theorem keepalive_roundtrip_witness :
    Message.deserialize_bytes
        (Message.serialize_bytes
          { header := kaHeader,
            inner := .keepAlive (List.replicate 8 peer7075) }) =
      some { header := kaHeader,
             inner := MessageInner.keepAlive (List.replicate 8 peer7075) } :=
  keepalive_roundtrip kaHeader (List.replicate 8 peer7075) (by rfl)
    (by decide) (by decide)

theorem lookupKey_isSome_iff_mem (a : Peer) (m : Peers) :
    (lookupKey a m).isSome ↔ a ∈ m.map Prod.fst := by
  induction m with
  | nil => simp [lookupKey]
  | cons kv rest ih =>
    simp only [lookupKey, List.map_cons, List.mem_cons]
    by_cases h : kv.1 = a
    · rw [if_pos h, h]
      simp
    · rw [if_neg h, ih]
      constructor
      · exact Or.inr
      · rintro (h' | hm)
        · exact absurd h'.symm h
        · exact hm

theorem keys_map_replace (m : Peers) (k : Peer) (v : PeerInfo) :
    (m.map fun kv => if kv.1 = k then (k, v) else kv).map Prod.fst =
      m.map Prod.fst := by
  induction m with
  | nil => rfl
  | cons kv rest ih =>
    by_cases h : kv.1 = k <;> simp [h, ih]

theorem mem_keys_mapInsert (m : Peers) (k : Peer) (v : PeerInfo) (a : Peer) :
    a ∈ (mapInsert m k v).map Prod.fst ↔ a = k ∨ a ∈ m.map Prod.fst := by
  unfold mapInsert
  by_cases h : (lookupKey k m).isSome
  · rw [if_pos h, keys_map_replace]
    have hk : k ∈ m.map Prod.fst := (lookupKey_isSome_iff_mem k m).mp h
    constructor
    · exact Or.inr
    · rintro (rfl | ha)
      · exact hk
      · exact ha
  · rw [if_neg h]
    simp [or_comm]

theorem nodup_keys_mapInsert (m : Peers) (k : Peer) (v : PeerInfo)
    (h : nodupKeys m) : nodupKeys (mapInsert m k v) := by
  unfold mapInsert nodupKeys at *
  by_cases hk : (lookupKey k m).isSome
  · rw [if_pos hk, keys_map_replace]
    exact h
  · rw [if_neg hk]
    have hk' : k ∉ m.map Prod.fst := fun hm =>
      hk ((lookupKey_isSome_iff_mem k m).mpr hm)
    simp only [List.map_append, List.map_cons, List.map_nil]
    rw [List.nodup_append]
    refine ⟨h, List.nodup_singleton k, ?_⟩
    intro x hx hxk
    rw [List.mem_singleton] at hxk
    subst hxk
    exact hk' hx

theorem mem_keys_removeKey (m : Peers) (k a : Peer)
    (h : a ∈ (removeKey k m).map Prod.fst) : a ∈ m.map Prod.fst := by
  induction m with
  | nil => simp [removeKey] at h
  | cons kv rest ih =>
    unfold removeKey at h
    by_cases hh : kv.1 = k
    · rw [if_pos hh] at h
      simp [h]
    · rw [if_neg hh] at h
      simp only [List.map_cons, List.mem_cons] at h ⊢
      rcases h with h | h
      · exact Or.inl h
      · exact Or.inr (ih h)

theorem not_mem_keys_removeKey_self (m : Peers) (k : Peer)
    (h : nodupKeys m) : k ∉ (removeKey k m).map Prod.fst := by
  induction m with
  | nil => simp [removeKey]
  | cons kv rest ih =>
    unfold nodupKeys at h
    simp only [List.map_cons, List.nodup_cons] at h
    unfold removeKey
    by_cases hh : kv.1 = k
    · rw [if_pos hh]
      rw [hh] at h
      exact h.1
    · rw [if_neg hh]
      simp only [List.map_cons, List.mem_cons]
      rintro (rfl | hk)
      · exact hh rfl
      · exact ih h.2 hk

theorem nodup_keys_removeKey (m : Peers) (k : Peer) (h : nodupKeys m) :
    nodupKeys (removeKey k m) := by
  induction m with
  | nil => simpa [removeKey] using h
  | cons kv rest ih =>
    unfold nodupKeys at h ⊢
    simp only [List.map_cons, List.nodup_cons] at h
    unfold removeKey
    by_cases hh : kv.1 = k
    · rw [if_pos hh]
      exact h.2
    · rw [if_neg hh]
      simp only [List.map_cons, List.nodup_cons]
      refine ⟨fun hm => h.1 (mem_keys_removeKey rest k kv.1 hm), ih h.2⟩

theorem mem_keys_foldl_mapInsert (l : List (Peer × PeerInfo)) (m : Peers)
    (a : Peer) :
    a ∈ ((l.foldl (fun m kv => mapInsert m kv.1 kv.2) m).map Prod.fst) ↔
      a ∈ m.map Prod.fst ∨ a ∈ l.map Prod.fst := by
  induction l generalizing m with
  | nil => simp
  | cons kv rest ih =>
    rw [List.foldl_cons, ih]
    rw [mem_keys_mapInsert]
    simp only [List.map_cons, List.mem_cons]
    tauto

theorem mem_keys_foldl_removeKey (l : List (Peer × PeerInfo)) (m : Peers)
    (a : Peer)
    (h : a ∈ ((l.foldl (fun m kv => removeKey kv.1 m) m).map Prod.fst)) :
    a ∈ m.map Prod.fst := by
  induction l generalizing m with
  | nil => simpa using h
  | cons kv rest ih =>
    rw [List.foldl_cons] at h
    exact mem_keys_removeKey m kv.1 a (ih (removeKey kv.1 m) h)

theorem not_mem_keys_foldl_removeKey (l : List (Peer × PeerInfo)) (m : Peers)
    (a : Peer) (hm : nodupKeys m) (ha : a ∈ l.map Prod.fst) :
    a ∉ ((l.foldl (fun m kv => removeKey kv.1 m) m).map Prod.fst) := by
  induction l generalizing m with
  | nil => simp at ha
  | cons kv rest ih =>
    simp only [List.map_cons, List.mem_cons] at ha
    rw [List.foldl_cons]
    rcases ha with rfl | ha
    · intro hmem
      exact not_mem_keys_removeKey_self m kv.1 hm
        (mem_keys_foldl_removeKey rest (removeKey kv.1 m) kv.1 hmem)
    · exact ih (removeKey kv.1 m) (nodup_keys_removeKey m kv.1 hm) ha

theorem disjoint_after_move (st : NodeState) (peer : Peer)
    (h2 : nodupKeys st.inactive_peers) (hd : DisjointMaps st)
    (active : Peers)
    (hsub : ∀ a, a ∈ active.map Prod.fst →
      a = peer ∨ a ∈ st.peers.map Prod.fst) :
    DisjointMaps
      { peers := active,
        inactive_peers := removeKey peer st.inactive_peers } := by
  intro a ha hi
  rw [lookupKey_isSome_iff_mem] at ha hi
  simp only at ha hi
  rcases hsub a ha with rfl | ha'
  · exact not_mem_keys_removeKey_self _ _ h2 hi
  · exact hd a ((lookupKey_isSome_iff_mem _ _).mpr ha')
      ((lookupKey_isSome_iff_mem _ _).mpr
        (mem_keys_removeKey _ _ _ hi))

theorem disjoint_after_stay (st : NodeState) (peer : Peer)
    (hio : lookupKey peer st.inactive_peers = none) (hd : DisjointMaps st)
    (active : Peers)
    (hsub : ∀ a, a ∈ active.map Prod.fst →
      a = peer ∨ a ∈ st.peers.map Prod.fst) :
    DisjointMaps
      { peers := active, inactive_peers := st.inactive_peers } := by
  intro a ha hi
  rw [lookupKey_isSome_iff_mem] at ha
  simp only at ha hi
  rcases hsub a ha with rfl | ha'
  · rw [hio] at hi
    simp at hi
  · exact hd a ((lookupKey_isSome_iff_mem _ _).mpr ha') hi

theorem add_or_update_peer_disjoint (check_addr : Peer → Bool) (now : Nat)
    (st : NodeState) (peer : Peer) (force : Bool)
    (h2 : nodupKeys st.inactive_peers) (hd : DisjointMaps st) :
    DisjointMaps (add_or_update_peer check_addr now st peer force).1 := by
  unfold add_or_update_peer
  by_cases hg : (!force && (lookupKey peer st.inactive_peers).isSome) = true
  · rw [if_pos hg]
    exact hd
  · rw [if_neg hg]
    cases hio : lookupKey peer st.inactive_peers with
    | some info =>
      simp only [hio]
      cases hac : lookupKey peer (mapInsert st.peers peer info) with
      | some old =>
        simp only
        refine disjoint_after_move st peer h2 hd _ (fun a ha => ?_)
        rcases (mem_keys_mapInsert _ _ _ a).mp ha with rfl | ha'
        · exact Or.inl rfl
        · exact (mem_keys_mapInsert _ _ _ a).mp ha'
      | none =>
        by_cases hca : check_addr peer = true
        · rw [if_pos hca]
          simp only
          refine disjoint_after_move st peer h2 hd _ (fun a ha => ?_)
          simp only [List.map_append, List.map_cons, List.map_nil,
            List.mem_append, List.mem_cons, List.not_mem_nil,
            or_false] at ha
          rcases ha with ha | rfl
          · exact (mem_keys_mapInsert _ _ _ a).mp ha
          · exact Or.inl rfl
        · rw [if_neg hca]
          simp only
          refine disjoint_after_move st peer h2 hd _ (fun a ha => ?_)
          exact (mem_keys_mapInsert _ _ _ a).mp ha
    | none =>
      simp only [hio]
      cases hac : lookupKey peer st.peers with
      | some old =>
        simp only
        refine disjoint_after_stay st peer hio hd _ (fun a ha => ?_)
        exact (mem_keys_mapInsert _ _ _ a).mp ha
      | none =>
        by_cases hca : check_addr peer = true
        · rw [if_pos hca]
          simp only
          refine disjoint_after_stay st peer hio hd _ (fun a ha => ?_)
          simp only [List.map_append, List.map_cons, List.map_nil,
            List.mem_append, List.mem_cons, List.not_mem_nil,
            or_false] at ha
          rcases ha with ha | rfl
          · exact Or.inr ha
          · exact Or.inl rfl
        · rw [if_neg hca]
          simp only
          exact fun a ha hi => hd a ha hi

theorem prune_peers_disjoint (now cutoff : Nat) (st : NodeState)
    (h1 : nodupKeys st.peers) (hd : DisjointMaps st) :
    DisjointMaps (prune_peers now cutoff st).1 := by
  unfold prune_peers
  intro a ha hi
  simp only at ha hi
  rw [lookupKey_isSome_iff_mem] at ha hi
  rcases (mem_keys_foldl_mapInsert _ _ _).mp hi with hin | hpl
  · exact hd a
      ((lookupKey_isSome_iff_mem _ _).mpr (mem_keys_foldl_removeKey _ _ _ ha))
      ((lookupKey_isSome_iff_mem _ _).mpr hin)
  · exact not_mem_keys_foldl_removeKey _ _ a h1 hpl ha

theorem remove_peer_disjoint (st : NodeState) (peer : Peer)
    (hd : DisjointMaps st) : DisjointMaps (remove_peer st peer) := by
  unfold remove_peer
  intro a ha hi
  simp only at ha hi
  rw [lookupKey_isSome_iff_mem] at ha
  exact hd a
    ((lookupKey_isSome_iff_mem _ _).mpr (mem_keys_removeKey _ _ _ ha)) hi

/-- C9: starting from disjoint active and inactive maps with unique keys,
each peer-table operation — `add_or_update_peer` with either force value,
`prune_peers`, and `remove_peer` — leaves the maps disjoint. -/
theorem peer_maps_stay_disjoint (check_addr : Peer → Bool)
    (now cutoff : Nat) (st : NodeState) (peer : Peer) (force : Bool)
    (h1 : nodupKeys st.peers) (h2 : nodupKeys st.inactive_peers)
    (hd : DisjointMaps st) :
    DisjointMaps (add_or_update_peer check_addr now st peer force).1 ∧
    DisjointMaps (prune_peers now cutoff st).1 ∧
    DisjointMaps (remove_peer st peer) :=
  ⟨add_or_update_peer_disjoint check_addr now st peer force h2 hd,
   prune_peers_disjoint now cutoff st h1 hd,
   remove_peer_disjoint st peer hd⟩

/-- Witness for `peer_maps_stay_disjoint` at a concrete one-entry state. -/
theorem peer_maps_stay_disjoint_witness :
    DisjointMaps (add_or_update_peer (fun _ => true) 1
      { peers := [(peer7075, { last_seen := 0 })], inactive_peers := [] }
      zeroPeer false).1 ∧
    DisjointMaps (prune_peers 1 0
      { peers := [(peer7075, { last_seen := 0 })],
        inactive_peers := [] }).1 ∧
    DisjointMaps (remove_peer
      { peers := [(peer7075, { last_seen := 0 })], inactive_peers := [] }
      zeroPeer) :=
  peer_maps_stay_disjoint (fun _ => true) 1 0
    { peers := [(peer7075, { last_seen := 0 })], inactive_peers := [] }
    zeroPeer false (by simp [nodupKeys]) (by simp [nodupKeys])
    (by intro a ha hi; simp [lookupKey] at hi)

theorem mapM_option_isSome (f : Nat → Option Peer) (l : List Nat)
    (h : ∀ a ∈ l, (f a).isSome) : (l.mapM f).isSome := by
  induction l with
  | nil => rw [List.mapM_nil]; rfl
  | cons a t ih =>
    rw [List.mapM_cons]
    obtain ⟨b, hb⟩ := Option.isSome_iff_exists.mp (h a (List.mem_cons_self a t))
    obtain ⟨bs, hbs⟩ := Option.isSome_iff_exists.mp
      (ih fun x hx => h x (List.mem_cons_of_mem a hx))
    rw [hb, hbs]
    rfl

/-- C10: `random_peers(n)` is total only on a non-empty active map: it
returns `none` exactly when at least one index must be drawn from the empty
range `[0, 0)` — that is, when `n ≥ 1` and the active map is empty, the
point where the source panics in `gen_range`. -/
theorem random_peers_none_iff (rng : Nat → Nat) (st : NodeState) (n : Nat) :
    random_peers rng st n = none ↔ 1 ≤ n ∧ st.peers = [] := by
  constructor
  · intro h
    by_contra hc
    rw [not_and_or] at hc
    rcases hc with hn | hne
    · have hn0 : n = 0 := by omega
      subst hn0
      rw [random_peers, List.range_zero, List.mapM_nil] at h
      simp at h
    · have hlen : st.peers.length ≠ 0 := by
        intro h0
        exact hne (List.eq_nil_of_length_eq_zero h0)
      have hsome : (random_peers rng st n).isSome := by
        unfold random_peers
        apply mapM_option_isSome
        intro i hi
        rw [if_neg hlen]
        have hidx : rng i % st.peers.length < st.peers.length :=
          Nat.mod_lt _ (Nat.pos_of_ne_zero hlen)
        rw [List.get?_eq_getElem?, List.getElem?_eq_getElem hidx]
        rfl
      rw [h] at hsome
      simp at hsome
  · rintro ⟨hn, he⟩
    obtain ⟨m, rfl⟩ : ∃ m, n = m + 1 := ⟨n - 1, by omega⟩
    unfold random_peers
    rw [show List.range (m + 1) = List.range m ++ [m] by
      simpa using List.range_succ m]
    rw [List.mapM_append, List.mapM_cons, List.mapM_nil]
    rw [he]
    simp

end NanoRs
